import Mathlib

/-!
Verification of the lbry-sdk wallet account model and claim indexing engine.

The development shallowly embeds `lbry/wallet/account.py` (account
encryption state machine, address managers, deterministic channel key
manager) and — for the parts of the repository whose implementation is not
in the source tree, namely the AES helpers in `lbry/crypto/crypt.py`, the
mnemonic and bip32 key primitives, and the claimtrie indexing engine — a
symbolic model built from the specification and validated against the
integration tests in `tests/integration/blockchain/test_blockchain.py`.

Machine integers do not occur: every quantity involved (heights, amounts,
indices, counters) is a Python arbitrary-precision int, so `Nat` is the
faithful carrier.
-/

namespace LbrySdk

/-! ## Symbolic model of strings handled by the account crypto code

Modelled from the spec: `lbry/crypto/crypt.py`, `mnemonic.py` and
`bip32.py` are not part of the source under analysis.  The spec says an
encrypted field is `base64(IV || AES-256-CBC(PKCS#7(key(password),
plaintext)))`; we model byte strings symbolically: a string is either
empty, a valid mnemonic seed phrase, a serialized extended private key,
an arbitrary other string, or a ciphertext recording the password, the
16-byte init vector and the plaintext that produced it (ideal-cipher
model). -/
inductive Data where
  | empty
  | mnemonic (n : Nat)
  | xprv (k : Nat)
  | other (n : Nat)
  | cipher (pw : Nat) (iv : Nat) (plain : Data)
deriving DecidableEq, Repr

/-- Modelled from the spec: `aes_encrypt(password, plaintext, iv)` returns
`base64(iv || AES(key(password), pad(plaintext)))`; symbolically the
ciphertext constructor applied to the three arguments. -/
def aes_encrypt (pw : Nat) (plain : Data) (iv : Nat) : Data :=
  Data.cipher pw iv plain

/-- Modelled from the spec: `aes_decrypt(password, data)` splits off the
16-byte init vector, decrypts and unpads, returning `(plaintext, iv)`; it
raises (here `none`) when the data is not well-formed base64/AES or when
the PKCS#7 padding check fails.  Decrypting with a wrong password yields
invalid padding except for rare padding collisions; the `collide` oracle
decides, for a ciphertext read with the wrong password, whether padding
accidentally validates (`some garbage`) or fails (`none`).  The init
vector returned is the one stored in the ciphertext, whatever the
password. -/
def aes_decrypt (collide : Nat → Data → Option Data) (pw : Nat) (d : Data) :
    Option (Data × Nat) :=
  match d with
  | Data.cipher pw' iv plain =>
      if pw = pw' then some (plain, iv)
      else (collide pw (Data.cipher pw' iv plain)).map (fun g => (g, iv))
  | _ => none

/-- Modelled from the spec: `Mnemonic().mnemonic_decode` succeeds exactly
on valid seed phrases from the fixed wordlist. -/
def mnemonic_decode_ok : Data → Bool
  | Data.mnemonic _ => true
  | _ => false

/-- Modelled from the spec: `from_extended_key_string` parses the
Base58Check extended-key serialization, failing on anything else. -/
def from_extended_key_string : Data → Option Nat
  | Data.xprv k => some k
  | _ => none

/-! ## Account state (`Account`, account.py lines 262–464)

Only the fields touched by `encrypt` / `decrypt` / `to_dict` are carried:
`seed`, `private_key` (the live `PrivateKey` object, symbolically its key
id), `private_key_string`, `encrypted`, and the two entries of the
`init_vectors` dict.  `public_key`, `name` and `modified_on` are carried
as inert data so that `to_dict` output is faithful. -/
structure AccountState where
  seed : Data
  private_key : Option Nat
  private_key_string : Data
  encrypted : Bool
  ivSeed : Option Nat
  ivPriv : Option Nat
  public_key : Nat
  name : Nat
  modified_on : Nat
deriving DecidableEq, Repr

/-- Embeds `Account.get_init_vector('seed')` (account.py 293–297): return
the stored init vector, generating and storing a fresh one (`os.urandom`,
modelled by the `fresh` argument) when absent. -/
def get_init_vector_seed (fresh : Nat) (st : AccountState) : Nat × AccountState :=
  match st.ivSeed with
  | some iv => (iv, st)
  | none => (fresh, { st with ivSeed := some fresh })

/-- Embeds `Account.get_init_vector('private_key')` (account.py 293–297). -/
def get_init_vector_priv (fresh : Nat) (st : AccountState) : Nat × AccountState :=
  match st.ivPriv with
  | some iv => (iv, st)
  | none => (fresh, { st with ivPriv := some fresh })

/-- Embeds `Account._decrypt_seed` (account.py 440–452).  The first
component is `none` when the Python method raises
(`InvalidPasswordError` from `aes_decrypt`, or the `ValueError` raised
when the decrypted seed fails `mnemonic_decode`); the second component is
the account state after the call, which reflects that
`self.init_vectors['seed']` is assigned as soon as `aes_decrypt` returns,
before the mnemonic check runs. -/
def decrypt_seed (collide : Nat → Data → Option Data) (pw : Nat) (st : AccountState) :
    Option Data × AccountState :=
  if st.seed = Data.empty then (some Data.empty, st)
  else
    match aes_decrypt collide pw st.seed with
    | none => (none, st)
    | some (seed, iv) =>
        let st' := { st with ivSeed := some iv }
        if seed = Data.empty then (some Data.empty, st')
        else if mnemonic_decode_ok seed then (some seed, st')
        else (none, st')

/-- Embeds `Account._decrypt_private_key_string` (account.py 430–438).
The first component is `some none` when the method returns `None`,
`some (some k)` when it returns a parsed key, and `none` when it raises
(`InvalidPasswordError`/`ValueError` from `aes_decrypt`, or the error from
`from_extended_key_string` on an undecodable key, caught by the caller);
`self.init_vectors['private_key']` is assigned as soon as `aes_decrypt`
returns. -/
def decrypt_private_key_string (collide : Nat → Data → Option Data) (pw : Nat)
    (st : AccountState) : Option (Option Nat) × AccountState :=
  if st.private_key_string = Data.empty then (some none, st)
  else
    match aes_decrypt collide pw st.private_key_string with
    | none => (none, st)
    | some (s, iv) =>
        let st' := { st with ivPriv := some iv }
        if s = Data.empty then (some none, st')
        else
          match from_extended_key_string s with
          | some k => (some (some k), st')
          | none => (none, st')

/-- Embeds `Account.decrypt` (account.py 414–428): attempt to decrypt the
seed, then the private key string; on any caught exception return `False`
leaving the main fields untouched; on success commit the decrypted
values, clear `private_key_string` and flip `encrypted`. -/
def decrypt (collide : Nat → Data → Option Data) (pw : Nat) (st : AccountState) :
    Bool × AccountState :=
  match decrypt_seed collide pw st with
  | (none, st1) => (false, st1)
  | (some seed, st1) =>
      match decrypt_private_key_string collide pw st1 with
      | (none, st2) => (false, st2)
      | (some pk, st2) =>
          (true, { st2 with
            seed := seed
            private_key := pk
            private_key_string := Data.empty
            encrypted := false })

/-- Embeds `Account.encrypt` (account.py 454–464): encrypt a non-empty
seed with the stored (or fresh) seed init vector, then serialize and
encrypt a present private key, clear the live key and set `encrypted`.
`freshS`/`freshP` model the `os.urandom(16)` draws used when an init
vector is not yet stored. -/
def encrypt (freshS freshP : Nat) (pw : Nat) (st : AccountState) : AccountState :=
  let st1 :=
    if st.seed = Data.empty then st
    else
      let (iv, st') := get_init_vector_seed freshS st
      { st' with seed := aes_encrypt pw st.seed iv }
  let st2 :=
    match st1.private_key with
    | none => st1
    | some k =>
        let (iv, st') := get_init_vector_priv freshP st1
        { st' with private_key_string := aes_encrypt pw (Data.xprv k) iv
                   private_key := none }
  { st2 with encrypted := true }

/-- Embeds the fields of the dictionary produced by `Account.to_dict`
(account.py 353–376) that depend on the account's key state, plus the
inert fields it copies. -/
structure AccountDict where
  seed : Data
  encrypted : Bool
  private_key : Data
  public_key : Nat
  name : Nat
  modified_on : Nat
deriving DecidableEq, Repr

/-- Embeds `Account.to_dict` (account.py 353–376) with an
`encrypt_password` argument (`none` models both `None` and the empty
string, which Python treats as falsy): serialize a live private key,
then — when unencrypted and a password is given — AES-encrypt the private
key string and the seed with the per-field init vectors from
`get_init_vector`, generating and caching them on first use.  The account
state is returned alongside because `get_init_vector` mutates
`self.init_vectors`. -/
def to_dict (freshS freshP : Nat) (encrypt_password : Option Nat) (st : AccountState) :
    AccountDict × AccountState :=
  let pks0 :=
    if st.encrypted = false ∧ st.private_key.isSome then
      match st.private_key with
      | some k => Data.xprv k
      | none => st.private_key_string
    else st.private_key_string
  let (pks1, seed1, st1) :=
    match encrypt_password with
    | some pw =>
        if st.encrypted then (pks0, st.seed, st)
        else
          let (pks', stA) :=
            if pks0 = Data.empty then (pks0, st)
            else
              let (iv, st') := get_init_vector_priv freshP st
              (aes_encrypt pw pks0 iv, st')
          let (seed', stB) :=
            if st.seed = Data.empty then (st.seed, stA)
            else
              let (iv, st') := get_init_vector_seed freshS stA
              (aes_encrypt pw st.seed iv, st')
          (pks', seed', stB)
    | none => (pks0, st.seed, st)
  (⟨seed1, st1.encrypted || encrypt_password.isSome, pks1,
    st1.public_key, st1.name, st1.modified_on⟩, st1)

/-! ### Lemmas: `_decrypt_seed` / `_decrypt_private_key_string` touch only
their init-vector entry -/

theorem decrypt_seed_state (collide : Nat → Data → Option Data) (pw : Nat)
    (st : AccountState) :
    (decrypt_seed collide pw st).2 = st ∨
    ∃ v, (decrypt_seed collide pw st).2 = { st with ivSeed := some v } := by
  unfold decrypt_seed
  split
  · exact Or.inl rfl
  · split
    · exact Or.inl rfl
    · next seed iv _ =>
        dsimp only
        split
        · exact Or.inr ⟨iv, rfl⟩
        · split
          · exact Or.inr ⟨iv, rfl⟩
          · exact Or.inr ⟨iv, rfl⟩

theorem decrypt_private_key_string_state (collide : Nat → Data → Option Data)
    (pw : Nat) (st : AccountState) :
    (decrypt_private_key_string collide pw st).2 = st ∨
    ∃ v, (decrypt_private_key_string collide pw st).2 = { st with ivPriv := some v } := by
  unfold decrypt_private_key_string
  split
  · exact Or.inl rfl
  · split
    · exact Or.inl rfl
    · next s iv _ =>
        dsimp only
        split
        · exact Or.inr ⟨iv, rfl⟩
        · split
          · exact Or.inr ⟨iv, rfl⟩
          · exact Or.inr ⟨iv, rfl⟩

/-- C1 (amended): when `Account.decrypt(password)` fails it returns
`False` and `seed`, `private_key`, `private_key_string` and `encrypted`
are unchanged; the stored init vectors, however, are not protected: an
init vector extracted during a successful AES decryption of a field is
recorded in `init_vectors` even when the overall decrypt fails. -/
theorem decrypt_failure_atomic_except_init_vectors
    (collide : Nat → Data → Option Data) (pw : Nat) (st : AccountState)
    (h : (decrypt collide pw st).1 = false) :
    (decrypt collide pw st).2.seed = st.seed ∧
    (decrypt collide pw st).2.private_key = st.private_key ∧
    (decrypt collide pw st).2.private_key_string = st.private_key_string ∧
    (decrypt collide pw st).2.encrypted = st.encrypted := by
  have hs := decrypt_seed_state collide pw st
  rcases hds : decrypt_seed collide pw st with ⟨o1, st1⟩
  rw [hds] at hs
  replace hs : st1 = st ∨ ∃ v, st1 = { st with ivSeed := some v } := hs
  have hst1 : st1.seed = st.seed ∧ st1.private_key = st.private_key ∧
      st1.private_key_string = st.private_key_string ∧ st1.encrypted = st.encrypted := by
    rcases hs with h1 | ⟨v, h1⟩ <;> subst h1 <;> exact ⟨rfl, rfl, rfl, rfl⟩
  cases o1 with
  | none =>
      have hval : decrypt collide pw st = (false, st1) := by
        unfold decrypt; simp only [hds]
      rw [hval]; exact hst1
  | some seed =>
      have hp := decrypt_private_key_string_state collide pw st1
      rcases hdp : decrypt_private_key_string collide pw st1 with ⟨o2, st2⟩
      rw [hdp] at hp
      replace hp : st2 = st1 ∨ ∃ v, st2 = { st1 with ivPriv := some v } := hp
      have hst2 : st2.seed = st1.seed ∧ st2.private_key = st1.private_key ∧
          st2.private_key_string = st1.private_key_string ∧
          st2.encrypted = st1.encrypted := by
        rcases hp with h2 | ⟨v, h2⟩ <;> subst h2 <;> exact ⟨rfl, rfl, rfl, rfl⟩
      cases o2 with
      | none =>
          have hval : decrypt collide pw st = (false, st2) := by
            unfold decrypt; simp only [hds, hdp]
          rw [hval]
          exact ⟨hst2.1.trans hst1.1, hst2.2.1.trans hst1.2.1,
            hst2.2.2.1.trans hst1.2.2.1, hst2.2.2.2.trans hst1.2.2.2⟩
      | some pk =>
          have hval : (decrypt collide pw st).1 = true := by
            unfold decrypt; simp only [hds, hdp]
          rw [hval] at h
          exact Bool.noConfusion h

/-- Account used by the C1 counterexample: freshly loaded encrypted
account (empty `init_vectors`), seed and private key encrypted under
password 1 with init vectors 7 and 8. -/
def exAccount : AccountState :=
  { seed := Data.cipher 1 7 (Data.mnemonic 3)
    private_key := none
    private_key_string := Data.cipher 1 8 (Data.xprv 5)
    encrypted := true
    ivSeed := none
    ivPriv := none
    public_key := 0
    name := 0
    modified_on := 0 }

/-- Collision oracle for the C1 counterexample: a wrong password hits a
valid-padding AES collision and yields garbage (the edge case the code
comment in `_decrypt_seed` acknowledges). -/
def exCollide : Nat → Data → Option Data := fun _ _ => some (Data.other 0)

/-- C1 counterexample: decrypting `exAccount` with the wrong password 2
fails (the colliding garbage seed fails mnemonic decoding, reported as
wrong password), yet the account state IS partially mutated: the stored
seed init vector changed from absent to the vector extracted from the
ciphertext, refuting the claim that the init vectors are unchanged on
failure. -/
theorem decrypt_failure_mutates_init_vector :
    (decrypt exCollide 2 exAccount).1 = false ∧
    (decrypt exCollide 2 exAccount).2.ivSeed ≠ exAccount.ivSeed := by decide

/-- Closed witness for `decrypt_failure_atomic_except_init_vectors`. -/
theorem decrypt_failure_atomic_witness :
    (decrypt exCollide 2 exAccount).1 = false ∧
    ((decrypt exCollide 2 exAccount).2.seed = exAccount.seed ∧
     (decrypt exCollide 2 exAccount).2.private_key = exAccount.private_key ∧
     (decrypt exCollide 2 exAccount).2.private_key_string = exAccount.private_key_string ∧
     (decrypt exCollide 2 exAccount).2.encrypted = exAccount.encrypted) :=
  ⟨by decide, decrypt_failure_atomic_except_init_vectors exCollide 2 exAccount (by decide)⟩

/-- C2: for an unencrypted account with a valid mnemonic seed and a live
private key, `encrypt(pw)` followed by `decrypt(pw)` succeeds, restores
`seed` and `private_key` to their values before encryption, and returns
the account to the unencrypted state — for every password, every
`os.urandom` draw and every AES collision behaviour. -/
theorem encrypt_then_decrypt_identity
    (collide : Nat → Data → Option Data) (freshS freshP pw n k : Nat)
    (st : AccountState) (henc : st.encrypted = false)
    (hseed : st.seed = Data.mnemonic n) (hpk : st.private_key = some k) :
    (decrypt collide pw (encrypt freshS freshP pw st)).1 = true ∧
    (decrypt collide pw (encrypt freshS freshP pw st)).2.seed = st.seed ∧
    (decrypt collide pw (encrypt freshS freshP pw st)).2.private_key = st.private_key ∧
    (decrypt collide pw (encrypt freshS freshP pw st)).2.encrypted = false := by
  rcases st with ⟨seed, pk, pks, enc, ivS, ivP, pub, nm, mo⟩
  simp only at hseed hpk henc
  subst hseed hpk henc
  cases ivS <;> cases ivP <;>
    simp [encrypt, decrypt, decrypt_seed, decrypt_private_key_string,
      aes_encrypt, aes_decrypt, get_init_vector_seed, get_init_vector_priv,
      mnemonic_decode_ok, from_extended_key_string]

/-- Closed witness for `encrypt_then_decrypt_identity`. -/
theorem encrypt_then_decrypt_identity_witness :
    let st : AccountState :=
      { seed := Data.mnemonic 3, private_key := some 5,
        private_key_string := Data.empty, encrypted := false,
        ivSeed := none, ivPriv := none, public_key := 0, name := 0, modified_on := 0 }
    (decrypt exCollide 9 (encrypt 11 12 9 st)).1 = true ∧
    (decrypt exCollide 9 (encrypt 11 12 9 st)).2.seed = st.seed ∧
    (decrypt exCollide 9 (encrypt 11 12 9 st)).2.private_key = st.private_key ∧
    (decrypt exCollide 9 (encrypt 11 12 9 st)).2.encrypted = false :=
  encrypt_then_decrypt_identity exCollide 11 12 9 3 5 _ rfl rfl rfl

/-- C8: on an unencrypted account, two successive
`to_dict(encrypt_password=pw)` calls return identical dictionaries (in
particular identical seed and private-key ciphertexts): the per-field
init vector is generated by the first call, cached in `init_vectors`, and
reused by the second, regardless of the fresh randomness supplied to the
second call. -/
theorem to_dict_encrypt_password_deterministic
    (f1 f2 f3 f4 pw : Nat) (st : AccountState) (henc : st.encrypted = false) :
    (to_dict f3 f4 (some pw) (to_dict f1 f2 (some pw) st).2).1 =
      (to_dict f1 f2 (some pw) st).1 := by
  rcases st with ⟨seed, pk, pks, enc, ivS, ivP, pub, nm, mo⟩
  simp only at henc
  subst henc
  cases pk <;> cases ivS <;> cases ivP <;>
    by_cases hs : seed = Data.empty <;>
    by_cases hp : pks = Data.empty <;>
      simp [to_dict, get_init_vector_seed, get_init_vector_priv, aes_encrypt, hs, hp]

/-- Closed witness for `to_dict_encrypt_password_deterministic`. -/
theorem to_dict_encrypt_password_deterministic_witness :
    let st : AccountState :=
      { seed := Data.mnemonic 3, private_key := some 5,
        private_key_string := Data.empty, encrypted := false,
        ivSeed := none, ivPriv := none, public_key := 0, name := 0, modified_on := 0 }
    (to_dict 21 22 (some 9) (to_dict 11 12 (some 9) st).2).1 =
      (to_dict 11 12 (some 9) st).1 :=
  to_dict_encrypt_password_deterministic 11 12 21 22 9 _ rfl

/-! ## Address managers (`HierarchicalDeterministic` / `SingleKey`)

An address record is modelled by its chain index `n` and its `used_times`
count; the database rows returned by `_query_addresses(order_by="n asc")`
are a list of records in ascending index order, and the index doubles as
the symbolic address (child-key derivation and hashing are injective). -/
structure HDAddr where
  n : Nat
  used_times : Nat
deriving DecidableEq, Repr

/-- Embeds the loop of `HierarchicalDeterministic.get_max_gap`
(account.py 176–186): the running `max_gap`/`current_gap` accumulators
over the `used_times` column in ascending index order. -/
def get_max_gap_loop : Nat → Nat → List Nat → Nat
  | max_gap, _, [] => max_gap
  | max_gap, current_gap, 0 :: rest => get_max_gap_loop max_gap (current_gap + 1) rest
  | max_gap, current_gap, (_ + 1) :: rest => get_max_gap_loop (max max_gap current_gap) 0 rest

/-- Embeds `HierarchicalDeterministic.get_max_gap` (account.py 176–186)
on the ascending `used_times` column. -/
def get_max_gap (used : List Nat) : Nat :=
  get_max_gap_loop 0 0 used

/-- Accumulator-free companion of `get_max_gap_loop` (`current_gap`
tracked, `max_gap` factored out). -/
def gapAux : Nat → List Nat → Nat
  | _, [] => 0
  | current_gap, 0 :: rest => gapAux (current_gap + 1) rest
  | current_gap, (_ + 1) :: rest => max current_gap (gapAux 0 rest)

/-- Length of the leading run of zeros of a list. -/
def leadingZeros : List Nat → Nat
  | 0 :: rest => leadingZeros rest + 1
  | _ => 0

/-- Formalizes the claim's description of `get_max_gap`: the length of
the longest run of consecutive zeros anywhere in the list, a run
extending to the end of the list included (maximum of the leading zero
run over all suffixes). -/
def maxZeroRun : List Nat → Nat
  | [] => 0
  | x :: rest => max (leadingZeros (x :: rest)) (maxZeroRun rest)

/-- Length of the leading zero run when that run is terminated by a
nonzero element, and `0` when the whole list is zeros (a trailing,
unterminated run). -/
def terminatedRun (l : List Nat) : Nat :=
  if leadingZeros l < l.length then leadingZeros l else 0

/-- Amended specification of `get_max_gap`: the longest run of
consecutive zeros that is immediately followed by a nonzero
(`used_times > 0`) entry; a trailing all-zero run does not count. -/
def maxGapSpec : List Nat → Nat
  | [] => 0
  | x :: rest => max (terminatedRun (x :: rest)) (maxGapSpec rest)

theorem get_max_gap_loop_eq (l : List Nat) :
    ∀ mg cg, get_max_gap_loop mg cg l = max mg (gapAux cg l) := by
  induction l with
  | nil => intro mg cg; simp [get_max_gap_loop, gapAux]
  | cons x rest ih =>
      intro mg cg
      match x with
      | 0 => simp [get_max_gap_loop, gapAux, ih]
      | u + 1 =>
          simp only [get_max_gap_loop, gapAux, ih, Nat.max_assoc]

theorem leadingZeros_replicate (k : Nat) :
    leadingZeros (List.replicate k 0) = k := by
  induction k with
  | zero => rfl
  | succ k ih => simp [List.replicate_succ, leadingZeros, ih]

theorem leadingZeros_replicate_append (k u : Nat) (rest : List Nat) :
    leadingZeros (List.replicate k 0 ++ (u + 1) :: rest) = k := by
  induction k with
  | zero => simp [leadingZeros]
  | succ k ih => simp [List.replicate_succ, leadingZeros, ih]

theorem maxGapSpec_succ_cons (u : Nat) (rest : List Nat) :
    maxGapSpec ((u + 1) :: rest) = maxGapSpec rest := by
  simp [maxGapSpec, terminatedRun, leadingZeros]

theorem maxGapSpec_replicate (k : Nat) :
    maxGapSpec (List.replicate k 0) = 0 := by
  induction k with
  | zero => rfl
  | succ k ih =>
      rw [List.replicate_succ, maxGapSpec, ih]
      have hlead : leadingZeros (0 :: List.replicate k 0) = k + 1 := by
        simp [leadingZeros, leadingZeros_replicate]
      simp [terminatedRun, hlead]

theorem maxGapSpec_replicate_append (k u : Nat) (rest : List Nat) :
    maxGapSpec (List.replicate k 0 ++ (u + 1) :: rest) =
      max k (maxGapSpec ((u + 1) :: rest)) := by
  induction k with
  | zero => simp
  | succ k ih =>
      have hlead := leadingZeros_replicate_append (k + 1) u rest
      rw [List.replicate_succ, List.cons_append, maxGapSpec, ih]
      rw [List.replicate_succ, List.cons_append] at hlead
      simp only [terminatedRun, hlead]
      rw [if_pos (by simp [List.length_append])]
      omega

theorem gapAux_eq (l : List Nat) :
    ∀ cg, gapAux cg l = maxGapSpec (List.replicate cg 0 ++ l) := by
  induction l with
  | nil => intro cg; simp [gapAux, maxGapSpec_replicate]
  | cons x rest ih =>
      intro cg
      match x with
      | 0 =>
          rw [gapAux, ih (cg + 1), List.replicate_succ']
          simp [List.append_assoc]
      | u + 1 =>
          rw [gapAux, ih 0, maxGapSpec_replicate_append]
          simp [maxGapSpec_succ_cons]

/-- C3 counterexample: on a single never-used address the code returns
gap 0, while the claimed semantics (longest zero run, a run reaching the
end of the list included) gives 1: `get_max_gap` never counts a trailing
unused run, because `max_gap` is only updated when a used address is
seen. -/
theorem get_max_gap_trailing_run_not_counted :
    get_max_gap [0] ≠ maxZeroRun [0] ∧
    get_max_gap [0] = 0 ∧ maxZeroRun [0] = 1 := by decide

/-- C3 (amended): `get_max_gap` returns the length of the longest run of
consecutive `used_times == 0` addresses that is immediately followed by a
used address; a trailing unused run (one extending to the end of the
list) is not counted. -/
theorem get_max_gap_eq_maxGapSpec (used : List Nat) :
    get_max_gap used = maxGapSpec used := by
  rw [get_max_gap, get_max_gap_loop_eq, gapAux_eq]
  simp

/-! ### `HierarchicalDeterministic.ensure_address_gap` (account.py 188–213) -/

/-- Embeds the `_query_addresses(limit=self.gap, order_by="n desc")`
call: the database rows (ascending index order) reversed, limited to
`gap`. -/
def queryDesc (db : List HDAddr) (gap : Nat) : List HDAddr :=
  db.reverse.take gap

/-- Embeds the `existing_gap` loop of `ensure_address_gap` (account.py
192–197): count `used_times == 0` records from the front of the
descending list, stopping at the first used one. -/
def existingGap (addresses : List HDAddr) : Nat :=
  (addresses.takeWhile (fun a => a.used_times == 0)).length

/-- Embeds `HierarchicalDeterministic._generate_keys(start, end)`
(account.py 208–213): the addresses of the child keys for indices
`start..end` inclusive. -/
def generate_keys (start last : Nat) : List Nat :=
  List.range' start (last + 1 - start)

/-- Result of `ensure_address_gap`: the returned list of new addresses,
the list announced to the ledger, and the database after
`db.add_keys`. -/
structure EnsureResult where
  generated : List Nat
  announced : List Nat
  newDb : List HDAddr
deriving DecidableEq, Repr

/-- Embeds `HierarchicalDeterministic.ensure_address_gap` (account.py
188–206): look at the last `gap` addresses in descending index order,
count the trailing unused run; if it already equals `gap` do nothing,
otherwise generate keys for the `gap - existing_gap` indices following
`addresses[0].n` (or from 0 on an empty chain), persist and announce
them. -/
def ensure_address_gap (gap : Nat) (db : List HDAddr) : EnsureResult :=
  let addresses := queryDesc db gap
  let existing_gap := existingGap addresses
  if existing_gap = gap then ⟨[], [], db⟩
  else
    let start := match addresses.head? with
      | some a => a.n + 1
      | none => 0
    let stop := start + (gap - existing_gap)
    let new_keys := generate_keys start (stop - 1)
    ⟨new_keys, new_keys, db ++ new_keys.map (fun i => ⟨i, 0⟩)⟩

/-- Largest index present in the database (0 for an empty database). -/
def maxN (db : List HDAddr) : Nat :=
  db.foldr (fun a m => max a.n m) 0

theorem mem_n_le_maxN (db : List HDAddr) (a : HDAddr) (ha : a ∈ db) :
    a.n ≤ maxN db := by
  induction db with
  | nil => cases ha
  | cons x rest ih =>
      rcases List.mem_cons.mp ha with h | h
      · subst h; exact Nat.le_max_left _ _
      · exact Nat.le_trans (ih h) (Nat.le_max_right _ _)

theorem getLast_n_eq_maxN (db : List HDAddr)
    (hsort : db.Pairwise (fun a b => a.n < b.n)) (a : HDAddr)
    (h : db.getLast? = some a) : a.n = maxN db := by
  induction db with
  | nil => cases h
  | cons x rest ih =>
      cases rest with
      | nil =>
          simp [List.getLast?] at h
          subst h
          simp [maxN]
      | cons y rest' =>
          rw [List.getLast?_cons_cons] at h
          have hlt := List.pairwise_cons.mp hsort
          have ha := ih hlt.2 h
          have hmem : a ∈ y :: rest' := by
            rcases List.mem_getLast?_eq_getLast h with ⟨hnil, heq⟩
            rw [heq]
            exact List.getLast_mem hnil
          have hxa : x.n < a.n := hlt.1 a hmem
          have : maxN (x :: y :: rest') = max x.n (maxN (y :: rest')) := rfl
          rw [this, ← ha]
          omega

theorem head_take_of_pos {α : Type} (k : Nat) (xs : List α) (hk : 0 < k) :
    (xs.take k).head? = xs.head? := by
  cases xs with
  | nil => simp
  | cons x rest =>
      cases k with
      | zero => cases hk
      | succ k => simp

theorem existingGap_le (addresses : List HDAddr) :
    existingGap addresses ≤ addresses.length :=
  (List.takeWhile_sublist _).length_le

/-- C4: on a database of addresses in ascending index order,
`ensure_address_gap` counts the trailing `used_times == 0` run among the
last `gap` addresses in descending index order; when that count already
equals `gap` it generates, persists and announces nothing, and otherwise
it generates exactly `gap − existing_gap` new addresses with contiguous
indices starting at `max_n + 1` (at 0 when the chain is empty), persists
them as fresh unused records, and announces exactly the generated
addresses. -/
theorem ensure_address_gap_spec (gap : Nat) (db : List HDAddr)
    (hsort : db.Pairwise (fun a b => a.n < b.n)) :
    (existingGap (queryDesc db gap) = gap →
      ensure_address_gap gap db = ⟨[], [], db⟩) ∧
    (existingGap (queryDesc db gap) ≠ gap →
      (ensure_address_gap gap db).generated =
        List.range' (if db = [] then 0 else maxN db + 1)
          (gap - existingGap (queryDesc db gap)) ∧
      (ensure_address_gap gap db).announced = (ensure_address_gap gap db).generated ∧
      (ensure_address_gap gap db).newDb =
        db ++ (ensure_address_gap gap db).generated.map (fun i => ⟨i, 0⟩)) := by
  constructor
  · intro heq
    unfold ensure_address_gap
    simp [heq]
  · intro hne
    have hgap_pos : 0 < gap := by
      rcases Nat.eq_zero_or_pos gap with h0 | h
      · exfalso
        apply hne
        have : queryDesc db gap = [] := by simp [queryDesc, h0]
        rw [this, h0]
        rfl
      · exact h
    have hle : existingGap (queryDesc db gap) ≤ gap := by
      have h1 := existingGap_le (queryDesc db gap)
      have h2 : (queryDesc db gap).length ≤ gap := by
        simp [queryDesc, List.length_take]
      omega
    have hstart : (match (queryDesc db gap).head? with
        | some a => a.n + 1
        | none => 0) = (if db = [] then 0 else maxN db + 1) := by
      rw [queryDesc, head_take_of_pos _ _ hgap_pos, List.head?_reverse]
      cases hdb : db with
      | nil => simp
      | cons x rest =>
          have hne' : db ≠ [] := by simp [hdb]
          rw [← hdb]
          rcases List.getLast?_isSome.mpr hne' |> Option.isSome_iff_exists.mp with ⟨a, ha⟩
          rw [ha]
          show a.n + 1 = (if db = [] then 0 else maxN db + 1)
          rw [if_neg hne', getLast_n_eq_maxN db hsort a ha]
    unfold ensure_address_gap
    simp only [if_neg hne, hstart]
    refine ⟨?_, by trivial, by trivial⟩
    simp only [generate_keys]
    congr 1
    omega

/-- Closed witness for `ensure_address_gap_spec`: database `[⟨0,1⟩,
⟨1,0⟩]`, gap 3 — the trailing unused run is 1, so two addresses with
indices 2 and 3 are generated. -/
theorem ensure_address_gap_spec_witness :
    (existingGap (queryDesc [⟨0, 1⟩, ⟨1, 0⟩] 3) = 3 →
      ensure_address_gap 3 [⟨0, 1⟩, ⟨1, 0⟩] = ⟨[], [], [⟨0, 1⟩, ⟨1, 0⟩]⟩) ∧
    (existingGap (queryDesc [⟨0, 1⟩, ⟨1, 0⟩] 3) ≠ 3 →
      (ensure_address_gap 3 [⟨0, 1⟩, ⟨1, 0⟩]).generated =
        List.range' (if ([⟨0, 1⟩, ⟨1, 0⟩] : List HDAddr) = [] then 0 else maxN [⟨0, 1⟩, ⟨1, 0⟩] + 1)
          (3 - existingGap (queryDesc [⟨0, 1⟩, ⟨1, 0⟩] 3)) ∧
      (ensure_address_gap 3 [⟨0, 1⟩, ⟨1, 0⟩]).announced =
        (ensure_address_gap 3 [⟨0, 1⟩, ⟨1, 0⟩]).generated ∧
      (ensure_address_gap 3 [⟨0, 1⟩, ⟨1, 0⟩]).newDb =
        [⟨0, 1⟩, ⟨1, 0⟩] ++ (ensure_address_gap 3 [⟨0, 1⟩, ⟨1, 0⟩]).generated.map (fun i => ⟨i, 0⟩)) :=
  ensure_address_gap_spec 3 [⟨0, 1⟩, ⟨1, 0⟩] (by decide)

/-! ### `SingleKey` manager (account.py 223–259) and
`AddressManager.get_or_create_usable_address` (account.py 135–141) -/

/-- Embeds `SingleKey.get_address_records` (account.py 258–259): the
`only_usable` argument is dropped on the floor and the raw query result
is returned. -/
def sk_get_address_records (_only_usable : Bool) (db : List HDAddr) : List HDAddr :=
  db

/-- Embeds `HierarchicalDeterministic.get_address_records` (account.py
215–220) for contrast: `only_usable` adds the
`used_times < maximum_uses_per_address` constraint. -/
def hd_get_address_records (maximum_uses_per_address : Nat) (only_usable : Bool)
    (db : List HDAddr) : List HDAddr :=
  if only_usable then db.filter (fun r => decide (r.used_times < maximum_uses_per_address))
  else db

/-- State of a `SingleKey` manager: the account's one address and the
database rows for its chain. -/
structure SingleKeyState where
  address : Nat
  db : List HDAddr
deriving DecidableEq, Repr

/-- Embeds `SingleKey.ensure_address_gap` (account.py 248–256): generate
the single address only when no record exists. -/
def sk_ensure_address_gap (st : SingleKeyState) : List Nat × SingleKeyState :=
  if st.db = [] then ([st.address], { st with db := [⟨st.address, 0⟩] })
  else ([], st)

/-- Embeds `AddressManager.get_or_create_usable_address` (account.py
135–141) instantiated at `SingleKey`: fetch up to 10 records with
`only_usable=True` (which `SingleKey.get_address_records` ignores), pick
one at random (`pick` models the random draw), falling back to
`ensure_address_gap` when empty. -/
def sk_get_or_create_usable_address (st : SingleKeyState) (pick : Nat) : Nat :=
  let addresses := (sk_get_address_records true (st.db.take 10)).map (fun r => r.n)
  match addresses with
  | [] => ((sk_ensure_address_gap st).1).headD 0
  | x :: xs => (x :: xs).getD (pick % (x :: xs).length) x

/-- C10: a single-address account whose one address already exists gets
that same address back from `get_or_create_usable_address` whatever its
`used_times` count — the `maximum_uses_per_address` limit is never
enforced because `SingleKey.get_address_records` ignores the
`only_usable` filter (while the HD manager's does filter). -/
theorem sk_get_or_create_ignores_usage :
    (∀ (addr used pick : Nat),
      sk_get_or_create_usable_address ⟨addr, [⟨addr, used⟩]⟩ pick = addr) ∧
    (∀ (only_usable : Bool) (db : List HDAddr),
      sk_get_address_records only_usable db = db) ∧
    (∀ (addr used maxUses : Nat), maxUses ≤ used →
      hd_get_address_records maxUses true [⟨addr, used⟩] = []) := by
  refine ⟨?_, fun _ _ => rfl, ?_⟩
  · intro addr used pick
    simp [sk_get_or_create_usable_address, sk_get_address_records, Nat.mod_one]
  · intro addr used maxUses h
    have hdec : decide (used < maxUses) = false := decide_eq_false (by omega)
    simp [hd_get_address_records, List.filter_cons, hdec]

/-- Closed witness for `sk_get_or_create_ignores_usage` (instantiating
the inner hypothesis `maxUses ≤ used` at 1 ≤ 5). -/
theorem sk_get_or_create_ignores_usage_witness :
    sk_get_or_create_usable_address ⟨4, [⟨4, 5⟩]⟩ 9 = 4 ∧
    sk_get_address_records true [⟨4, 5⟩] = [⟨4, 5⟩] ∧
    hd_get_address_records 1 true [⟨4, 5⟩] = [] :=
  ⟨sk_get_or_create_ignores_usage.1 4 5 9,
   sk_get_or_create_ignores_usage.2.1 true [⟨4, 5⟩],
   sk_get_or_create_ignores_usage.2.2 4 5 1 (by decide)⟩

/-! ## Deterministic channel key manager (account.py 36–71)

The BIP32 child keys under the account's CHANNEL path are modelled
symbolically: the child private key at index `n` is `n`, its public key
is `n`, and its address is `addrOf n` for an (injective) address
derivation `addrOf`.  The `cache` dict is an insertion-ordered
association list, and `is_channel_key_used` is an arbitrary database
predicate `used` on the child index. -/
structure ChanKeyState where
  last_known : Nat
  cache : List (Nat × Nat)
deriving DecidableEq, Repr

/-- Python dict assignment `cache[address] = key`: replace the entry in
place when the key exists, append otherwise. -/
def cacheInsert (c : List (Nat × Nat)) (a k : Nat) : List (Nat × Nat) :=
  if c.any (fun p => p.1 == a) then c.map (fun p => if p.1 == a then (a, k) else p)
  else c ++ [(a, k)]

/-- Embeds
`DeterministicChannelKeyManager.maybe_generate_deterministic_key_for_channel`
(account.py 46–54): when the account has a private key and the observed
channel txo's public key equals the derived child at `last_known`, cache
that key under its address and advance `last_known`. -/
def maybe_generate_deterministic_key_for_channel (addrOf : Nat → Nat)
    (has_private_key : Bool) (txo_channel_pubkey : Nat) (st : ChanKeyState) :
    ChanKeyState :=
  if has_private_key = false then st
  else if txo_channel_pubkey = st.last_known then
    { last_known := st.last_known + 1
      cache := cacheInsert st.cache (addrOf st.last_known) st.last_known }
  else st

/-- Embeds `DeterministicChannelKeyManager.generate_next_key`
(account.py 60–68): derive and cache successive children from
`last_known`, returning the first whose public key the database has not
seen; `fuel` bounds the unbounded `while True` loop (`none` on
exhaustion). -/
def generate_next_key (addrOf : Nat → Nat) (used : Nat → Bool) :
    Nat → ChanKeyState → ChanKeyState × Option Nat
  | 0, st => (st, none)
  | fuel + 1, st =>
      let n := st.last_known
      let st1 := { st with cache := cacheInsert st.cache (addrOf n) n }
      if used n then generate_next_key addrOf used fuel { st1 with last_known := n + 1 }
      else (st1, some n)

/-- Every cache entry maps the address of a derived child key to that
key — the invariant the live manager maintains, since entries are only
ever written as `cache[key.address] = key`. -/
def cacheConsistent (addrOf : Nat → Nat) (st : ChanKeyState) : Prop :=
  ∀ p ∈ st.cache, p.1 = addrOf p.2

theorem cacheInsert_consistent (addrOf : Nat → Nat) (c : List (Nat × Nat)) (n : Nat)
    (hc : ∀ p ∈ c, p.1 = addrOf p.2) :
    ∀ p ∈ cacheInsert c (addrOf n) n, p.1 = addrOf p.2 := by
  intro p hp
  unfold cacheInsert at hp
  split at hp
  · rcases List.mem_map.mp hp with ⟨q, hq, hpq⟩
    by_cases h : q.1 = addrOf n
    · simp [h] at hpq
      subst hpq
      rfl
    · have : (if q.1 == addrOf n then (addrOf n, n) else q) = q := by
        simp [h]
      rw [this] at hpq
      subst hpq
      exact hc q hq
  · rcases List.mem_append.mp hp with h | h
    · exact hc p h
    · simp at h
      subst h
      rfl

theorem cacheInsert_preserves (addrOf : Nat → Nat) (hinj : Function.Injective addrOf)
    (c : List (Nat × Nat)) (n a k : Nat) (hc : ∀ p ∈ c, p.1 = addrOf p.2)
    (hmem : (a, k) ∈ c) : (a, k) ∈ cacheInsert c (addrOf n) n := by
  unfold cacheInsert
  split
  · refine List.mem_map.mpr ⟨(a, k), hmem, ?_⟩
    by_cases h : a = addrOf n
    · have hk : addrOf k = addrOf n := by
        have := hc (a, k) hmem
        simp at this
        rw [← this, h]
      have : k = n := hinj hk
      simp [h, this]
    · simp [h]
  · exact List.mem_append_left _ hmem

theorem generate_next_key_append_only (addrOf : Nat → Nat)
    (hinj : Function.Injective addrOf) (used : Nat → Bool) :
    ∀ (fuel : Nat) (st : ChanKeyState), cacheConsistent addrOf st →
      (∀ a k, (a, k) ∈ st.cache → (a, k) ∈ (generate_next_key addrOf used fuel st).1.cache) ∧
      st.last_known ≤ (generate_next_key addrOf used fuel st).1.last_known ∧
      cacheConsistent addrOf (generate_next_key addrOf used fuel st).1 := by
  intro fuel
  induction fuel with
  | zero => intro st hcons; exact ⟨fun a k h => h, Nat.le_refl _, hcons⟩
  | succ fuel ih =>
      intro st hcons
      unfold generate_next_key
      dsimp only
      split
      · have hcons1 : cacheConsistent addrOf
            ⟨st.last_known + 1, cacheInsert st.cache (addrOf st.last_known) st.last_known⟩ :=
          cacheInsert_consistent addrOf st.cache st.last_known hcons
        rcases ih _ hcons1 with ⟨hmem, hle, hcons2⟩
        refine ⟨?_, ?_, hcons2⟩
        · intro a k hk
          exact hmem a k (cacheInsert_preserves addrOf hinj st.cache st.last_known a k hcons hk)
        · exact Nat.le_trans (Nat.le_succ _) hle
      · refine ⟨?_, Nat.le_refl _, ?_⟩
        · intro a k hk
          exact cacheInsert_preserves addrOf hinj st.cache st.last_known a k hcons hk
        · exact cacheInsert_consistent addrOf st.cache st.last_known hcons

/-- C9: the deterministic channel-key cache is append-only and its
high-water mark is monotonic: under the manager's invariant that every
cache entry maps a derived address to its derived key, both
`maybe_generate_deterministic_key_for_channel` and `generate_next_key`
preserve every existing `address → private key` entry (no removal, no
overwrite with a different key) and never decrease `last_known`. -/
theorem channel_key_cache_append_only (addrOf : Nat → Nat) (used : Nat → Bool)
    (has_private_key : Bool) (txo_pubkey fuel a k : Nat) (st : ChanKeyState)
    (hinj : Function.Injective addrOf) (hcons : cacheConsistent addrOf st) :
    ((a, k) ∈ st.cache →
      (a, k) ∈ (maybe_generate_deterministic_key_for_channel addrOf has_private_key
        txo_pubkey st).cache ∧
      (a, k) ∈ (generate_next_key addrOf used fuel st).1.cache) ∧
    st.last_known ≤ (maybe_generate_deterministic_key_for_channel addrOf has_private_key
      txo_pubkey st).last_known ∧
    st.last_known ≤ (generate_next_key addrOf used fuel st).1.last_known := by
  have hgen := generate_next_key_append_only addrOf hinj used fuel st hcons
  refine ⟨fun hmem => ⟨?_, hgen.1 a k hmem⟩, ?_, hgen.2.1⟩
  · unfold maybe_generate_deterministic_key_for_channel
    split
    · exact hmem
    · split
      · exact cacheInsert_preserves addrOf hinj st.cache st.last_known a k hcons hmem
      · exact hmem
  · unfold maybe_generate_deterministic_key_for_channel
    split
    · exact Nat.le_refl _
    · split
      · exact Nat.le_succ _
      · exact Nat.le_refl _

/-- Closed witness for `channel_key_cache_append_only`: identity address
derivation, a database that reports every key unused, and a cache holding
keys 0 and 1 with `last_known = 2`. -/
theorem channel_key_cache_append_only_witness :
    (((0 : Nat), (0 : Nat)) ∈ (⟨2, [(0, 0), (1, 1)]⟩ : ChanKeyState).cache →
      ((0 : Nat), (0 : Nat)) ∈ (maybe_generate_deterministic_key_for_channel (fun n => n) true 2
        ⟨2, [(0, 0), (1, 1)]⟩).cache ∧
      ((0 : Nat), (0 : Nat)) ∈ (generate_next_key (fun n => n) (fun _ => false) 3
        ⟨2, [(0, 0), (1, 1)]⟩).1.cache) ∧
    (⟨2, [(0, 0), (1, 1)]⟩ : ChanKeyState).last_known ≤
      (maybe_generate_deterministic_key_for_channel (fun n => n) true 2
        ⟨2, [(0, 0), (1, 1)]⟩).last_known ∧
    (⟨2, [(0, 0), (1, 1)]⟩ : ChanKeyState).last_known ≤
      (generate_next_key (fun n => n) (fun _ => false) 3 ⟨2, [(0, 0), (1, 1)]⟩).1.last_known :=
  channel_key_cache_append_only (fun n => n) (fun _ => false) true 2 3 0 0
    ⟨2, [(0, 0), (1, 1)]⟩ (fun _ _ h => h) (by intro p hp; fin_cases hp <;> rfl)

/-! ## Claimtrie engine

Modelled from the spec: the claim indexer and claimtrie engine
(`lbry/blockchain/sync` and the database layer) are not under the source
tree — only their integration tests are.  The model below implements
§4.8 of the spec (activation delay, takeover arbitration with
activation of all pending claims when a takeover occurs, expiration,
effective amounts) for a single normalized name, parameterized by the
expiration interval `E`, and is validated below against the
`TestClaimtrieSync` traces of
`tests/integration/blockchain/test_blockchain.py`.  Amounts are in
tenths of LBC; claim ids are assigned in transaction order, which also
resolves same-block ties. -/
structure TClaim where
  cid : Nat
  amount : Nat
  height : Nat
  activation : Nat
  expiration : Nat
deriving DecidableEq, Repr

/-- A support for claim `scid`, with the same activation rules. -/
structure TSupport where
  scid : Nat
  amount : Nat
  height : Nat
  activation : Nat
  expiration : Nat
deriving DecidableEq, Repr

/-- Claimtrie state for one name: indexed claims and supports in
insertion (transaction) order, the controlling claim id, and the height
of the last takeover. -/
structure TrieState where
  claims : List TClaim
  supports : List TSupport
  controlling : Option Nat
  takeover_height : Nat
deriving DecidableEq, Repr

/-- Operations a block can carry for the name, mirroring the `advance`
helper of the tests (`('claim'|'update'|'abandon'|'support', …)`). -/
inductive ClaimOp where
  | claim (cid amount : Nat)
  | update (cid amount : Nat)
  | abandon (cid : Nat)
  | support (cid amount : Nat)
deriving DecidableEq, Repr

/-- Modelled from the spec: `min(floor((h_c − h_ctrl) / 32), 4032)`. -/
def activationDelay (h_c h_ctrl : Nat) : Nat :=
  min ((h_c - h_ctrl) / 32) 4032

/-- Modelled from the spec: a claim entering at `h_c` activates
immediately when no controlling claim exists on the name, and after the
activation delay relative to the controlling claim's takeover height
otherwise. -/
def claimActivationHeight (controlling : Option Nat) (takeover_height h_c : Nat) : Nat :=
  match controlling with
  | none => h_c
  | some _ => h_c + activationDelay h_c takeover_height

/-- Modelled from the spec: supports follow the same rule; a support for
the controlling claim itself activates immediately. -/
def supportActivationHeight (controlling : Option Nat) (takeover_height : Nat)
    (cid h_s : Nat) : Nat :=
  if controlling = some cid then h_s
  else
    match controlling with
    | none => h_s
    | some _ => h_s + activationDelay h_s takeover_height

/-- Modelled from the spec: a claim's effective (staked) amount at `h`
is its own amount plus every support for it that is active and not
expired at `h`. -/
def effectiveAmount (supports : List TSupport) (h : Nat) (c : TClaim) : Nat :=
  c.amount + ((supports.filter (fun s =>
    decide (s.scid = c.cid ∧ s.activation ≤ h ∧ h < s.expiration))).map
      (fun s => s.amount)).sum

/-- A claim counts for takeover arbitration at `h` when activated and
not expired. -/
def isActive (h : Nat) (c : TClaim) : Bool :=
  decide (c.activation ≤ h ∧ h < c.expiration)

/-- Strict preference: `b` beats `a` on effective amount, ties broken by
earlier height and then by transaction order (claim id). -/
def betterClaim (supports : List TSupport) (h : Nat) (a b : TClaim) : Bool :=
  decide (effectiveAmount supports h a < effectiveAmount supports h b ∨
    (effectiveAmount supports h b = effectiveAmount supports h a ∧
      (b.height < a.height ∨ (b.height = a.height ∧ b.cid < a.cid))))

/-- Takeover candidate at `h`: the best active claim. -/
def bestClaim (st : TrieState) (h : Nat) : Option Nat :=
  ((st.claims.filter (isActive h)).foldl (fun acc c =>
    match acc with
    | none => some c
    | some a => if betterClaim st.supports h a c then some c else some a) none).map
      (fun c => c.cid)

/-- Expired claims and supports leave the trie at their expiration
height. -/
def expireStep (h : Nat) (st : TrieState) : TrieState :=
  { st with
    claims := st.claims.filter (fun c => decide (h < c.expiration))
    supports := st.supports.filter (fun s => decide (h < s.expiration)) }

/-- Apply one transaction at height `h`: create (with activation per the
delay rule and expiration `h + E`), update (same id, new amount, renewed
height and expiration), abandon (claim and its supports leave), or
support. -/
def applyOp (E h : Nat) (st : TrieState) : ClaimOp → TrieState
  | ClaimOp.claim cid amount =>
      { st with claims := st.claims ++
          [⟨cid, amount, h, claimActivationHeight st.controlling st.takeover_height h, h + E⟩] }
  | ClaimOp.update cid amount =>
      { st with claims := st.claims.map (fun c =>
          if c.cid = cid then { c with amount := amount, height := h, expiration := h + E }
          else c) }
  | ClaimOp.abandon cid =>
      { st with
        claims := st.claims.filter (fun c => decide (c.cid ≠ cid))
        supports := st.supports.filter (fun s => decide (s.scid ≠ cid)) }
  | ClaimOp.support cid amount =>
      { st with supports := st.supports ++
          [⟨cid, amount, h,
            supportActivationHeight st.controlling st.takeover_height cid h, h + E⟩] }

def applyOps (E h : Nat) (st : TrieState) (ops : List ClaimOp) : TrieState :=
  ops.foldl (applyOp E h) st

/-- When a takeover occurs every pending claim and support on the name
activates at the takeover height. -/
def activateAll (h : Nat) (st : TrieState) : TrieState :=
  { st with
    claims := st.claims.map (fun c =>
      if h < c.activation then { c with activation := h } else c)
    supports := st.supports.map (fun s =>
      if h < s.activation then { s with activation := h } else s) }

/-- Takeover arbitration at height `h` (spec §4.8): if the best active
claim differs from the current controlling claim, flush the pending
queue for the name and crown the best claim of the resulting state,
recording `takeover_height = h`. -/
def takeoverCheck (h : Nat) (st : TrieState) : TrieState :=
  let best := bestClaim st h
  if best = st.controlling then st
  else
    let st' := activateAll h st
    let best' := bestClaim st' h
    { st' with
      controlling := best'
      takeover_height := if best'.isSome then h else st.takeover_height }

/-- One block at height `h`: expiration, then the block's transactions,
then takeover arbitration. -/
def stepHeight (E h : Nat) (ops : List ClaimOp) (st : TrieState) : TrieState :=
  takeoverCheck h (applyOps E h (expireStep h st) ops)

/-- Step from height `cur` through `cur + fuel`, applying `ops` in the
block at height `target` and empty blocks elsewhere. -/
def advanceBlocks (E target : Nat) (ops : List ClaimOp) :
    Nat → Nat → TrieState → TrieState
  | _, 0, st => st
  | cur, fuel + 1, st =>
      advanceBlocks E target ops (cur + 1) fuel
        (stepHeight E (cur + 1) (if cur + 1 = target then ops else []) st)

def initTrie : TrieState := ⟨[], [], none, 0⟩

/-- Run one `advance(new_height, ops)` of the test driver. -/
def runStep (E : Nat) (st : TrieState × Nat) (blk : Nat × List ClaimOp) : TrieState × Nat :=
  (advanceBlocks E blk.1 blk.2 st.2 (blk.1 - st.2) st.1, blk.1)

/-- Run a trace of `advance` calls from the empty trie at height 0. -/
def runTrace (E : Nat) (trace : List (Nat × List ClaimOp)) : TrieState × Nat :=
  trace.foldl (runStep E) (initTrie, 0)

/-- Observation mirroring the tests' `state(controlling, active,
accepted)` checks: tuples `(claim id, amount, staked amount,
takeover/activation height)`. -/
structure TrieView where
  controlling : Option (Nat × Nat × Nat × Nat)
  active : List (Nat × Nat × Nat × Nat)
  accepted : List (Nat × Nat × Nat × Nat)
deriving DecidableEq, Repr

def observe (st : TrieState) (h : Nat) : TrieView :=
  { controlling :=
      match st.controlling with
      | none => none
      | some cid => (st.claims.find? (fun c => c.cid == cid)).map
          (fun c => (c.cid, c.amount, effectiveAmount st.supports h c, st.takeover_height))
    active := (st.claims.filter (fun c =>
        decide (c.activation ≤ h ∧ h < c.expiration ∧ some c.cid ≠ st.controlling))).map
          (fun c => (c.cid, c.amount, effectiveAmount st.supports h c, c.activation))
    accepted := (st.claims.filter (fun c =>
        decide (h < c.activation ∧ h < c.expiration))).map
          (fun c => (c.cid, c.amount, effectiveAmount st.supports h c, c.activation)) }

def viewAt (E : Nat) (trace : List (Nat × List ClaimOp)) : TrieView :=
  observe (runTrace E trace).1 (runTrace E trace).2

/-- The trace of `TestClaimtrieSync.test_example_from_spec` (claims
A,B,C,D are ids 1,2,3,4; amounts in tenths of LBC; regtest expiration
interval 500). -/
def specExampleTrace : List (Nat × List ClaimOp) :=
  [(113, [ClaimOp.claim 1 100]),
   (501, [ClaimOp.claim 2 200]),
   (510, [ClaimOp.support 1 140]),
   (512, [ClaimOp.claim 3 500]),
   (513, []),
   (520, [ClaimOp.claim 4 600]),
   (524, []),
   (525, [ClaimOp.update 1 700])]

/-- The trace of
`TestClaimtrieSync.test_winning_claim_expires_and_another_takes_over` up
to the height-610 checkpoint (claims A,B are ids 1,2). -/
def expireTrace610 : List (Nat × List ClaimOp) :=
  [(110, [ClaimOp.claim 1 20]), (120, [ClaimOp.claim 2 10]), (610, [])]

/-- The same trace continued to the height-620 checkpoint. -/
def expireTrace620 : List (Nat × List ClaimOp) :=
  expireTrace610 ++ [(620, [])]

theorem advanceBlocks_add (E t : Nat) (ops : List ClaimOp) (a : Nat) :
    ∀ (b cur : Nat) (st : TrieState),
      advanceBlocks E t ops cur (a + b) st =
        advanceBlocks E t ops (cur + a) b (advanceBlocks E t ops cur a st) := by
  induction a with
  | zero =>
      intro b cur st
      rw [Nat.zero_add, Nat.add_zero]
      rfl
  | succ a ih =>
      intro b cur st
      have h1 : a + 1 + b = (a + b) + 1 := by omega
      have h2 : cur + (a + 1) = (cur + 1) + a := by omega
      rw [h1, h2]
      have hL : advanceBlocks E t ops cur ((a + b) + 1) st =
          advanceBlocks E t ops (cur + 1) (a + b)
            (stepHeight E (cur + 1) (if cur + 1 = t then ops else []) st) := rfl
      have hR : advanceBlocks E t ops cur (a + 1) st =
          advanceBlocks E t ops (cur + 1) a
            (stepHeight E (cur + 1) (if cur + 1 = t then ops else []) st) := rfl
      rw [hL, hR, ih]

set_option maxRecDepth 5000

/-! ### Intermediate trie states along the test traces -/

def specSt113 : TrieState := ⟨[⟨1, 100, 113, 113, 613⟩], [], some 1, 113⟩

def specSt501 : TrieState :=
  ⟨[⟨1, 100, 113, 113, 613⟩, ⟨2, 200, 501, 513, 1001⟩], [], some 1, 113⟩

def specSt510 : TrieState :=
  ⟨[⟨1, 100, 113, 113, 613⟩, ⟨2, 200, 501, 513, 1001⟩],
   [⟨1, 140, 510, 510, 1010⟩], some 1, 113⟩

def specSt512 : TrieState :=
  ⟨[⟨1, 100, 113, 113, 613⟩, ⟨2, 200, 501, 513, 1001⟩, ⟨3, 500, 512, 524, 1012⟩],
   [⟨1, 140, 510, 510, 1010⟩], some 1, 113⟩

def specSt520 : TrieState :=
  ⟨[⟨1, 100, 113, 113, 613⟩, ⟨2, 200, 501, 513, 1001⟩, ⟨3, 500, 512, 524, 1012⟩,
    ⟨4, 600, 520, 532, 1020⟩],
   [⟨1, 140, 510, 510, 1010⟩], some 1, 113⟩

def specSt524 : TrieState :=
  ⟨[⟨1, 100, 113, 113, 613⟩, ⟨2, 200, 501, 513, 1001⟩, ⟨3, 500, 512, 524, 1012⟩,
    ⟨4, 600, 520, 524, 1020⟩],
   [⟨1, 140, 510, 510, 1010⟩], some 4, 524⟩

def specSt525 : TrieState :=
  ⟨[⟨1, 700, 525, 113, 1025⟩, ⟨2, 200, 501, 513, 1001⟩, ⟨3, 500, 512, 524, 1012⟩,
    ⟨4, 600, 520, 524, 1020⟩],
   [⟨1, 140, 510, 510, 1010⟩], some 1, 525⟩

/-- A block with no transactions at a height where nothing expires and
the best active claim is already controlling leaves the trie state
unchanged. -/
theorem stepHeight_fix (E h : Nat) (st : TrieState)
    (hexp : ∀ c ∈ st.claims, h < c.expiration)
    (hsup : ∀ s ∈ st.supports, h < s.expiration)
    (hbest : bestClaim st h = st.controlling) :
    stepHeight E h [] st = st := by
  have hexpire : expireStep h st = st := by
    unfold expireStep
    rw [List.filter_eq_self.mpr (fun c hc => decide_eq_true (hexp c hc)),
      List.filter_eq_self.mpr (fun s hs => decide_eq_true (hsup s hs))]
  have happly : applyOps E h (expireStep h st) [] = st := by rw [hexpire]; rfl
  rw [stepHeight, happly, takeoverCheck]
  simp [hbest]

/-- Iterated form of `stepHeight_fix`: over a height range containing no
transaction block, no expiration and no takeover, the trie state is a
fixpoint. -/
theorem advanceBlocks_fix (E t : Nat) (ops : List ClaimOp) :
    ∀ (fuel cur : Nat) (st : TrieState),
      (∀ h, cur < h → h ≤ cur + fuel → h ≠ t ∧
         (∀ c ∈ st.claims, h < c.expiration) ∧
         (∀ s ∈ st.supports, h < s.expiration) ∧
         bestClaim st h = st.controlling) →
      advanceBlocks E t ops cur fuel st = st := by
  intro fuel
  induction fuel with
  | zero => intro cur st _; rfl
  | succ fuel ih =>
      intro cur st hcond
      have h1 := hcond (cur + 1) (by omega) (by omega)
      have hstep : stepHeight E (cur + 1) (if cur + 1 = t then ops else []) st = st := by
        rw [if_neg h1.1]
        exact stepHeight_fix E (cur + 1) st h1.2.1 h1.2.2.1 h1.2.2.2
      show advanceBlocks E t ops (cur + 1) fuel
        (stepHeight E (cur + 1) (if cur + 1 = t then ops else []) st) = st
      rw [hstep]
      exact ih (cur + 1) st (fun h hl hr => hcond h (by omega) (by omega))

theorem spec_run_113 :
    runTrace 500 (specExampleTrace.take 1) = (specSt113, 113) := by decide

theorem spec_fix_500 :
    advanceBlocks 500 501 [ClaimOp.claim 2 200] 113 387 specSt113 = specSt113 := by
  apply advanceBlocks_fix
  intro h hl hr
  refine ⟨by omega, ?_, ?_, ?_⟩
  · intro c hc
    fin_cases hc
    show h < 613
    omega
  · intro s hs
    cases hs
  · have hact : isActive h ⟨1, 100, 113, 113, 613⟩ = true := by
      simp only [isActive, decide_eq_true_eq]
      omega
    simp [bestClaim, specSt113, List.filter_cons, hact]

theorem spec_run_501 :
    runTrace 500 (specExampleTrace.take 2) = (specSt501, 501) := by
  have h : specExampleTrace.take 2 =
      specExampleTrace.take 1 ++ [(501, [ClaimOp.claim 2 200])] := rfl
  rw [h, runTrace, List.foldl_append, ← runTrace, spec_run_113]
  show (advanceBlocks 500 501 [ClaimOp.claim 2 200] 113 (501 - 113) specSt113, 501) =
    (specSt501, 501)
  have hsplit : (501 : Nat) - 113 = 387 + 1 := by norm_num
  rw [hsplit, advanceBlocks_add, spec_fix_500]
  decide

theorem spec_run_510 :
    runTrace 500 (specExampleTrace.take 3) = (specSt510, 510) := by
  have h : specExampleTrace.take 3 =
      specExampleTrace.take 2 ++ [(510, [ClaimOp.support 1 140])] := rfl
  rw [h, runTrace, List.foldl_append, ← runTrace, spec_run_501]
  decide

theorem spec_run_512 :
    runTrace 500 (specExampleTrace.take 4) = (specSt512, 512) := by
  have h : specExampleTrace.take 4 =
      specExampleTrace.take 3 ++ [(512, [ClaimOp.claim 3 500])] := rfl
  rw [h, runTrace, List.foldl_append, ← runTrace, spec_run_510]
  decide

theorem spec_run_513 :
    runTrace 500 (specExampleTrace.take 5) = (specSt512, 513) := by
  have h : specExampleTrace.take 5 = specExampleTrace.take 4 ++ [(513, [])] := rfl
  rw [h, runTrace, List.foldl_append, ← runTrace, spec_run_512]
  decide

theorem spec_run_520 :
    runTrace 500 (specExampleTrace.take 6) = (specSt520, 520) := by
  have h : specExampleTrace.take 6 =
      specExampleTrace.take 5 ++ [(520, [ClaimOp.claim 4 600])] := rfl
  rw [h, runTrace, List.foldl_append, ← runTrace, spec_run_513]
  decide

theorem spec_run_524 :
    runTrace 500 (specExampleTrace.take 7) = (specSt524, 524) := by
  have h : specExampleTrace.take 7 = specExampleTrace.take 6 ++ [(524, [])] := rfl
  rw [h, runTrace, List.foldl_append, ← runTrace, spec_run_520]
  decide

theorem spec_run_525 :
    runTrace 500 specExampleTrace = (specSt525, 525) := by
  have h : specExampleTrace = specExampleTrace.take 7 ++ [(525, [ClaimOp.update 1 700])] := rfl
  rw [h, runTrace, List.foldl_append, ← runTrace, spec_run_524]
  decide

def expSt110 : TrieState := ⟨[⟨1, 20, 110, 110, 610⟩], [], some 1, 110⟩

def expSt120 : TrieState :=
  ⟨[⟨1, 20, 110, 110, 610⟩, ⟨2, 10, 120, 120, 620⟩], [], some 1, 110⟩

def expSt610 : TrieState := ⟨[⟨2, 10, 120, 120, 620⟩], [], some 2, 610⟩

def expSt620 : TrieState := ⟨[], [], none, 610⟩

def expBigSt120 : TrieState :=
  ⟨[⟨1, 20, 110, 110, 2102510⟩, ⟨2, 10, 120, 120, 2102520⟩], [], some 1, 110⟩

theorem exp_run_110 :
    runTrace 500 (expireTrace610.take 1) = (expSt110, 110) := by decide

theorem exp_run_120 :
    runTrace 500 (expireTrace610.take 2) = (expSt120, 120) := by
  have h : expireTrace610.take 2 =
      expireTrace610.take 1 ++ [(120, [ClaimOp.claim 2 10])] := rfl
  rw [h, runTrace, List.foldl_append, ← runTrace, exp_run_110]
  decide

theorem exp_fix_609 :
    advanceBlocks 500 610 [] 120 489 expSt120 = expSt120 := by
  apply advanceBlocks_fix
  intro h hl hr
  refine ⟨by omega, ?_, ?_, ?_⟩
  · intro c hc
    fin_cases hc
    · show h < 610
      omega
    · show h < 620
      omega
  · intro s hs
    cases hs
  · have hact1 : isActive h ⟨1, 20, 110, 110, 610⟩ = true := by
      simp only [isActive, decide_eq_true_eq]
      omega
    have hact2 : isActive h ⟨2, 10, 120, 120, 620⟩ = true := by
      simp only [isActive, decide_eq_true_eq]
      omega
    simp [bestClaim, expSt120, List.filter_cons, hact1, hact2, betterClaim,
      effectiveAmount]

theorem exp_run_610 :
    runTrace 500 expireTrace610 = (expSt610, 610) := by
  have h : expireTrace610 = expireTrace610.take 2 ++ [(610, [])] := rfl
  rw [h, runTrace, List.foldl_append, ← runTrace, exp_run_120]
  show (advanceBlocks 500 610 [] 120 (610 - 120) expSt120, 610) = (expSt610, 610)
  have hsplit : (610 : Nat) - 120 = 489 + 1 := by norm_num
  rw [hsplit, advanceBlocks_add, exp_fix_609]
  decide

theorem exp_run_620 :
    runTrace 500 expireTrace620 = (expSt620, 620) := by
  rw [expireTrace620, runTrace, List.foldl_append, ← runTrace, exp_run_610]
  decide

theorem expBig_run_110 :
    runTrace 2102400 (expireTrace610.take 1) =
      (⟨[⟨1, 20, 110, 110, 2102510⟩], [], some 1, 110⟩, 110) := by decide

theorem expBig_run_120 :
    runTrace 2102400 (expireTrace610.take 2) = (expBigSt120, 120) := by
  have h : expireTrace610.take 2 =
      expireTrace610.take 1 ++ [(120, [ClaimOp.claim 2 10])] := rfl
  rw [h, runTrace, List.foldl_append, ← runTrace, expBig_run_110]
  decide

theorem expBig_fix_609 :
    advanceBlocks 2102400 610 [] 120 489 expBigSt120 = expBigSt120 := by
  apply advanceBlocks_fix
  intro h hl hr
  refine ⟨by omega, ?_, ?_, ?_⟩
  · intro c hc
    fin_cases hc
    · show h < 2102510
      omega
    · show h < 2102520
      omega
  · intro s hs
    cases hs
  · have hact1 : isActive h ⟨1, 20, 110, 110, 2102510⟩ = true := by
      simp only [isActive, decide_eq_true_eq]
      omega
    have hact2 : isActive h ⟨2, 10, 120, 120, 2102520⟩ = true := by
      simp only [isActive, decide_eq_true_eq]
      omega
    simp [bestClaim, expBigSt120, List.filter_cons, hact1, hact2, betterClaim,
      effectiveAmount]

theorem expBig_run_610 :
    runTrace 2102400 expireTrace610 = (expBigSt120, 610) := by
  have h : expireTrace610 = expireTrace610.take 2 ++ [(610, [])] := rfl
  rw [h, runTrace, List.foldl_append, ← runTrace, expBig_run_120]
  show (advanceBlocks 2102400 610 [] 120 (610 - 120) expBigSt120, 610) = (expBigSt120, 610)
  have hsplit : (610 : Nat) - 120 = 489 + 1 := by norm_num
  rw [hsplit, advanceBlocks_add, expBig_fix_609]
  decide

/-- C5: in the claimtrie model, a claim entering at height `h_c` on a
name whose controlling claim has been in place since `h_ctrl` is
assigned activation height `h_c + min(floor((h_c − h_ctrl)/32), 4032)`,
and a claim entering with no controlling claim activates immediately;
the model reproduces every `state(...)` checkpoint of
`TestClaimtrieSync.test_example_from_spec` (ids 1–4 are claims A–D,
amounts in tenths of LBC): B enters at 501 under a takeover at 113 and
pends to 513, C enters at 512 and pends to 524, D enters at 520 and
pends to 532, the first claim activates at its own height 113. -/
theorem claim_activation_height_spec :
    (∀ x h_ctrl h_c, claimActivationHeight (some x) h_ctrl h_c =
        h_c + min ((h_c - h_ctrl) / 32) 4032) ∧
    (∀ h_ctrl h_c, claimActivationHeight none h_ctrl h_c = h_c) ∧
    viewAt 500 (specExampleTrace.take 1) = ⟨some (1, 100, 100, 113), [], []⟩ ∧
    viewAt 500 (specExampleTrace.take 2) =
      ⟨some (1, 100, 100, 113), [], [(2, 200, 200, 513)]⟩ ∧
    viewAt 500 (specExampleTrace.take 3) =
      ⟨some (1, 100, 240, 113), [], [(2, 200, 200, 513)]⟩ ∧
    viewAt 500 (specExampleTrace.take 4) =
      ⟨some (1, 100, 240, 113), [], [(2, 200, 200, 513), (3, 500, 500, 524)]⟩ ∧
    viewAt 500 (specExampleTrace.take 5) =
      ⟨some (1, 100, 240, 113), [(2, 200, 200, 513)], [(3, 500, 500, 524)]⟩ ∧
    viewAt 500 (specExampleTrace.take 6) =
      ⟨some (1, 100, 240, 113), [(2, 200, 200, 513)],
       [(3, 500, 500, 524), (4, 600, 600, 532)]⟩ ∧
    viewAt 500 (specExampleTrace.take 7) =
      ⟨some (4, 600, 600, 524),
       [(1, 100, 240, 113), (2, 200, 200, 513), (3, 500, 500, 524)], []⟩ ∧
    viewAt 500 specExampleTrace =
      ⟨some (1, 700, 840, 525),
       [(2, 200, 200, 513), (3, 500, 500, 524), (4, 600, 600, 524)], []⟩ := by
  refine ⟨fun x h_ctrl h_c => rfl, fun h_ctrl h_c => rfl, ?_, ?_, ?_, ?_, ?_, ?_, ?_, ?_⟩
  · rw [viewAt, spec_run_113]; decide
  · rw [viewAt, spec_run_501]; decide
  · rw [viewAt, spec_run_510]; decide
  · rw [viewAt, spec_run_512]; decide
  · rw [viewAt, spec_run_513]; decide
  · rw [viewAt, spec_run_520]; decide
  · rw [viewAt, spec_run_524]; decide
  · rw [viewAt, spec_run_525]; decide

/-! ### Expiration invariant (C6) -/

/-- Every claim's expiration height is its height plus the expiration
interval. -/
def expirationInv (E : Nat) (l : List TClaim) : Prop :=
  ∀ c ∈ l, c.expiration = c.height + E

theorem expirationInv_expireStep (E h : Nat) (st : TrieState)
    (hinv : expirationInv E st.claims) : expirationInv E (expireStep h st).claims :=
  fun c hc => hinv c (List.mem_filter.mp hc).1

theorem expirationInv_applyOp (E h : Nat) (st : TrieState) (op : ClaimOp)
    (hinv : expirationInv E st.claims) : expirationInv E (applyOp E h st op).claims := by
  cases op with
  | claim cid amount =>
      intro c hc
      rcases List.mem_append.mp hc with h1 | h1
      · exact hinv c h1
      · simp at h1
        subst h1
        rfl
  | update cid amount =>
      intro c hc
      rcases List.mem_map.mp hc with ⟨d, hd, hdc⟩
      by_cases hid : d.cid = cid
      · rw [← hdc]
        simp [hid]
      · rw [← hdc]
        simp [hid]
        exact hinv d hd
  | abandon cid => exact fun c hc => hinv c (List.mem_filter.mp hc).1
  | support cid amount => exact hinv

theorem expirationInv_applyOps (E h : Nat) (ops : List ClaimOp) :
    ∀ st : TrieState, expirationInv E st.claims →
      expirationInv E (applyOps E h st ops).claims := by
  induction ops with
  | nil => exact fun st hinv => hinv
  | cons op rest ih =>
      intro st hinv
      exact ih (applyOp E h st op) (expirationInv_applyOp E h st op hinv)

theorem expirationInv_activateAll (E h : Nat) (st : TrieState)
    (hinv : expirationInv E st.claims) : expirationInv E (activateAll h st).claims := by
  intro c hc
  rcases List.mem_map.mp hc with ⟨d, hd, hdc⟩
  by_cases hlt : h < d.activation
  · rw [← hdc]
    simp [hlt]
    exact hinv d hd
  · rw [← hdc]
    simp [hlt]
    exact hinv d hd

theorem expirationInv_takeoverCheck (E h : Nat) (st : TrieState)
    (hinv : expirationInv E st.claims) : expirationInv E (takeoverCheck h st).claims := by
  unfold takeoverCheck
  dsimp only
  split
  · exact hinv
  · exact expirationInv_activateAll E h st hinv

theorem expirationInv_stepHeight (E h : Nat) (ops : List ClaimOp) (st : TrieState)
    (hinv : expirationInv E st.claims) : expirationInv E (stepHeight E h ops st).claims :=
  expirationInv_takeoverCheck E h _
    (expirationInv_applyOps E h ops _ (expirationInv_expireStep E h st hinv))

theorem expirationInv_advanceBlocks (E t : Nat) (ops : List ClaimOp) :
    ∀ (fuel cur : Nat) (st : TrieState), expirationInv E st.claims →
      expirationInv E (advanceBlocks E t ops cur fuel st).claims := by
  intro fuel
  induction fuel with
  | zero => exact fun cur st hinv => hinv
  | succ fuel ih =>
      intro cur st hinv
      exact ih (cur + 1) _ (expirationInv_stepHeight E (cur + 1) _ st hinv)

theorem expirationInv_runTrace (E : Nat) (trace : List (Nat × List ClaimOp)) :
    expirationInv E (runTrace E trace).1.claims := by
  suffices h : ∀ p : TrieState × Nat, expirationInv E p.1.claims →
      expirationInv E (trace.foldl (runStep E) p).1.claims by
    exact h (initTrie, 0) (fun c hc => absurd hc (List.not_mem_nil c))
  induction trace with
  | nil => exact fun p hp => hp
  | cons blk rest ih =>
      intro p hp
      exact ih (runStep E p blk) (expirationInv_advanceBlocks E blk.1 blk.2 _ _ p.1 hp)

/-- C6 (amended): every claim indexed by the claimtrie engine satisfies
`expiration_height = height + E` where `E` is the ledger's expiration
interval — 2102400 is the mainnet value the spec quotes, while the
regtest chain the repository's own tests run on uses 500. -/
theorem expiration_height_eq_height_plus_interval (E : Nat)
    (trace : List (Nat × List ClaimOp)) (c : TClaim)
    (hc : c ∈ (runTrace E trace).1.claims) : c.expiration = c.height + E :=
  expirationInv_runTrace E trace c hc

/-- Closed witness for `expiration_height_eq_height_plus_interval`. -/
theorem expiration_height_eq_height_plus_interval_witness :
    (⟨1, 20, 110, 110, 610⟩ : TClaim) ∈ (runTrace 500 (expireTrace610.take 1)).1.claims ∧
    (610 : Nat) = 110 + 500 :=
  ⟨by rw [exp_run_110]; decide,
   expiration_height_eq_height_plus_interval 500 (expireTrace610.take 1) ⟨1, 20, 110, 110, 610⟩
     (by rw [exp_run_110]; decide)⟩

/-- C6 counterexample: with the constant 2102400 the claimtrie model
contradicts the repository's own integration test
`test_winning_claim_expires_and_another_takes_over`: the model with
expiration interval 500 reproduces all three asserted states (claim A
controlling after 120, claim B taking over when A expires at 610, no
controlling claim at 620), while with interval 2102400 claim A would
still be controlling at 610; concretely, the claim indexed at height 110
carries expiration height 610 ≠ 110 + 2102400. -/
theorem expiration_2102400_contradicts_tests :
    viewAt 500 (expireTrace610.take 2) =
      ⟨some (1, 20, 20, 110), [(2, 10, 10, 120)], []⟩ ∧
    viewAt 500 expireTrace610 = ⟨some (2, 10, 10, 610), [], []⟩ ∧
    viewAt 500 expireTrace620 = ⟨none, [], []⟩ ∧
    viewAt 2102400 expireTrace610 = ⟨some (1, 20, 20, 110), [(2, 10, 10, 120)], []⟩ ∧
    (runTrace 500 (expireTrace610.take 1)).1.claims = [⟨1, 20, 110, 110, 610⟩] ∧
    (610 : Nat) ≠ 110 + 2102400 := by
  refine ⟨?_, ?_, ?_, ?_, ?_, by decide⟩
  · rw [viewAt, exp_run_120]; decide
  · rw [viewAt, exp_run_610]; decide
  · rw [viewAt, exp_run_620]; decide
  · rw [viewAt, expBig_run_610]; decide
  · rw [exp_run_110]; rfl

/-! ## Channel signature validity (C7)

Modelled from the spec: the signature re-validation logic of the claim
indexer (§4.7 item 4) is not under the source tree; only its integration
test `TestGeneralBlockchainSync.test_claim_and_support_signing` is.  A
signed item (claim or support) is checked against the channel's current
on-chain public key at the time the item's own operation is indexed;
channel key changes do not touch already-indexed items.  Keys are
symbolic (`Nat`); items are identified by id. -/
structure SigItem where
  iid : Nat
  valid : Bool
deriving DecidableEq, Repr

/-- Indexer state for one channel: its current on-chain public key and
the indexed signed items with their `signature_valid` flags. -/
structure SigState where
  channel_key : Nat
  items : List SigItem
deriving DecidableEq, Repr

/-- Operations: a broadcast channel update carrying a new key (re-key),
publishing a new item signed with some key, and updating (re-signing) an
existing item. -/
inductive SigOp where
  | resetKey (k : Nat)
  | publish (iid k : Nat)
  | reSign (iid k : Nat)
deriving DecidableEq, Repr

def sigStep (st : SigState) : SigOp → SigState
  | SigOp.resetKey k => { st with channel_key := k }
  | SigOp.publish iid k => { st with items := st.items ++ [⟨iid, k == st.channel_key⟩] }
  | SigOp.reSign iid k =>
      { st with items := st.items.map (fun it =>
          if it.iid = iid then ⟨iid, k == st.channel_key⟩ else it) }

def sigRun (st : SigState) (ops : List SigOp) : SigState :=
  ops.foldl sigStep st

/-- The indexed `signature_valid` flag of item `iid` (`none` when the
item is not indexed). -/
def sigValid (st : SigState) (iid : Nat) : Option Bool :=
  (st.items.find? (fun it => it.iid == iid)).map (fun it => it.valid)

theorem sigValid_reSign_find (iid k key : Nat) :
    ∀ l : List SigItem,
      ((l.map (fun it => if it.iid = iid then (⟨iid, k == key⟩ : SigItem) else it)).find?
          (fun it => it.iid == iid)).map (fun it => it.valid) =
        ((l.find? (fun it => it.iid == iid)).map (fun it => it.valid)).map
          (fun _ => k == key) := by
  intro l
  induction l with
  | nil => rfl
  | cons x rest ih =>
      by_cases h : x.iid = iid
      · simp only [List.map_cons, if_pos h, List.find?_cons, beq_self_eq_true]
        have hx : (x.iid == iid) = true := by simp [h]
        simp [hx]
      · have hx : (x.iid == iid) = false := by simp [h]
        simp only [List.map_cons, if_neg h, List.find?_cons, hx]
        exact ih

/-- The `resetChannelKey` trace of the signing test: stream 2 (item 1)
is published signed with the channel's original key 0; the channel
re-keys on chain to 1; the stream is updated signed with a fresh
never-broadcast key 2; then updated again signed with the current key 1;
finally the channel re-keys back to the original key 0 and the stream is
re-signed with 0. -/
def signingScenario : List SigOp :=
  [SigOp.publish 1 0, SigOp.resetKey 1, SigOp.reSign 1 2, SigOp.reSign 1 1,
   SigOp.resetKey 0, SigOp.reSign 1 0]

/-- C7: a broadcast channel re-key never changes the `signature_valid`
flag of an already-indexed claim or support; re-signing an item sets its
flag to whether the signing key matches the channel's current key
(invalid for a wrong key, valid again for the current one) and leaves
every other item untouched; and on the concrete trace of
`test_claim_and_support_signing`, the item published under the old key
stays valid across the re-key, turns invalid when updated with a
never-broadcast key, and becomes valid again when re-signed — including
after the channel returns to its original key. -/
theorem signature_validity_rekey_spec :
    (∀ (st : SigState) (k iid : Nat),
      sigValid (sigStep st (SigOp.resetKey k)) iid = sigValid st iid) ∧
    (∀ (st : SigState) (iid k : Nat),
      sigValid (sigStep st (SigOp.reSign iid k)) iid =
        (sigValid st iid).map (fun _ => k == st.channel_key)) ∧
    (∀ (st : SigState) (iid k j : Nat), j ≠ iid →
      sigValid (sigStep st (SigOp.reSign iid k)) j = sigValid st j) ∧
    sigValid (sigRun ⟨0, []⟩ (signingScenario.take 2)) 1 = some true ∧
    sigValid (sigRun ⟨0, []⟩ (signingScenario.take 3)) 1 = some false ∧
    sigValid (sigRun ⟨0, []⟩ (signingScenario.take 4)) 1 = some true ∧
    sigValid (sigRun ⟨0, []⟩ signingScenario) 1 = some true := by
  refine ⟨fun st k iid => rfl, ?_, ?_, by decide, by decide, by decide, by decide⟩
  · intro st iid k
    exact sigValid_reSign_find iid k st.channel_key st.items
  · intro st iid k j hj
    unfold sigValid sigStep
    dsimp only
    congr 1
    induction st.items with
    | nil => rfl
    | cons x rest ih =>
        by_cases h : x.iid = iid
        · have hx : (x.iid == j) = false := by
            simp [h]
            omega
          have hij : (iid == j) = false := by
            simp
            omega
          simp only [List.map_cons, if_pos h, List.find?_cons, hx, hij]
          exact ih
        · have hx : ((if x.iid = iid then (⟨iid, k == st.channel_key⟩ : SigItem) else x).iid
              == j) = (x.iid == j) := by
            rw [if_neg h]
          simp only [List.map_cons, if_neg h, List.find?_cons]
          by_cases hxj : x.iid = j
          · have h1 : (x.iid == j) = true := by simp [hxj]
            simp [h1]
          · have h1 : (x.iid == j) = false := by simp [hxj]
            simp only [h1]
            exact ih

/-- Closed witness for `signature_validity_rekey_spec` (instantiating
the inner hypothesis `j ≠ iid` at 2 ≠ 1). -/
theorem signature_validity_rekey_spec_witness :
    sigValid (sigStep ⟨5, [⟨1, true⟩, ⟨2, true⟩]⟩ (SigOp.reSign 1 7)) 2 =
      sigValid ⟨5, [⟨1, true⟩, ⟨2, true⟩]⟩ 2 :=
  signature_validity_rekey_spec.2.2.1 ⟨5, [⟨1, true⟩, ⟨2, true⟩]⟩ 1 7 2 (by decide)

end LbrySdk
